import Mathlib

/-!
Verification of the training orchestrator in `src/model.py` (class `Model`).

Shallow embedding conventions:
- A batch is a `List Int`, one entry per sample row (collaborator math is
  opaque, so one integer per row suffices; layer math is carried by opaque
  function fields).
- Python object references held by `prev`/`next`/`trainable` become indices
  into the model-owned layer list (the arena view of the same topology);
  `prev`/`next` assignments of `finalize` are recorded in a `links` list.
- A raised Python exception (IndexError on `layers[i+1]`, AttributeError on a
  missing transient field, ZeroDivisionError on `step % 0`, the `np.vstack`
  failure on an empty list) is modelled by an `Option` result of `none`;
  partial writes made before the raise are discarded with it.
- Python truthiness of the `batches` argument (`if batches:`) is modelled by
  `truthy`: `None` and `0` are both falsy.
-/

namespace NNFS

/-- A network object as the orchestrator sees it: two capability flags read at
build time (`isinstance(_, SoftMax)` and `hasattr(_, "weights")`), an opaque
parameter snapshot (`get`/`set` payload), opaque per-sample forward and
backward maps and an opaque `predict` conversion, plus the transient
per-batch fields that `Model.save` strips. -/
structure Layer where
  isSoftMax : Bool
  hasWeights : Bool
  weights : Int
  f : Bool → Int → Int
  b : Int → Int
  pr : List Int → List Int
  inputs : Option (List Int)
  output : Option (List Int)
  dinputs : Option Int
  dweights : Option Int
  dbiases : Option Int

/-- A node of the linked chain built by `Model.finalize`: the input sentinel,
a layer (by its index in the layer list), or the terminal loss object. -/
inductive Node where
  | sentinel : Node
  | layer : Nat → Node
  | loss : Node
deriving DecidableEq

/-- A collaborator call made by `Model.backward`, in call order:
`combined_loss_activation.backward`, `loss.backward`, or
`layers[i].backward` (with the upstream gradient it consumed). -/
inductive Ev where
  | sccB : List Int → List Int → Ev
  | lossB : List Int → List Int → Ev
  | layB : Nat → Int → Ev
deriving DecidableEq

/-- The model state: the owned layer list, the collaborator capabilities the
orchestrator calls (loss/accuracy/fused-shortcut/optimizer, all opaque), the
loss and accuracy accumulators, the transient fields of the sentinel and the
loss, and the graph-derived fields written by `finalize` (`links`,
`trainable`, `activationIdx`, `combined`). -/
structure Model where
  layers : List Layer
  lossIsCCE : Bool
  lossCalc : List Int → List Int → Int
  lossBack : List Int → List Int → Int
  sccBack : List Int → List Int → Int
  accCalc : List Int → List Int → Int
  optF : Layer → Layer
  lossAccSum : Int
  lossAccCount : Nat
  accAccSum : Int
  accAccCount : Nat
  lossD : Option Int
  sentinelOut : Option (List Int)
  links : List (Node × Node)
  trainable : List Nat
  activationIdx : Nat
  combined : Bool

/-- Python truthiness of the optional batch-size argument: `None` and `0` are
falsy, any other number is truthy (`if batches:` in `train`, `evaluate`,
`predict`). -/
def truthy : Option Nat → Bool
  | none => false
  | some b => b != 0

/-- Step-count computation shared verbatim by `Model.train`
(src/model.py:129-136), `Model.evaluate` (246-253) and `Model.predict`
(287-294): `steps = 1`; if `batches` is truthy, `steps = len(X) // batches`,
plus one more when `steps * batches < len(X)`. -/
def stepCount (n : Nat) (batches : Option Nat) : Nat :=
  if truthy batches then
    let b := batches.getD 0
    let s := n / b
    if s * b < n then s + 1 else s
  else 1

/-- The batch processed at a given step, shared by the three loops:
the whole dataset when `batches` is falsy, otherwise the Python slice
`X[step*batches:(step+1)*batches]` (which clamps at the end of the list). -/
def stepBatch (X : List α) (batches : Option Nat) (step : Nat) : List α :=
  if truthy batches then
    let b := batches.getD 0
    (X.drop (step * b)).take b
  else X

/-- The in-order pass of `Model.forward` (src/model.py:214-215): each layer
consumes the previous output, records its transient `inputs`/`output`, and
hands its output on.  Returns the updated layers and the last output (the
running input when no layers remain). -/
def runLayers (t : Bool) (x : List Int) : List Layer → List Layer × List Int
  | [] => ([], x)
  | l :: ls =>
    let out := x.map (l.f t)
    let rest := runLayers t out ls
    ({ l with inputs := some x, output := some out } :: rest.1, rest.2)

/-- Model.forward (src/model.py:206-218): store the raw batch as the sentinel
output, push it through every layer in list order, return the last layer's
output.  With an empty layer list the trailing `return layer.output` reads an
unbound loop variable (NameError), modelled as `none`. -/
def forward (m : Model) (X : List Int) (t : Bool) : Option (Model × List Int) :=
  match m.layers with
  | [] => none
  | _ :: _ =>
    let r := runLayers t X m.layers
    some ({ m with sentinelOut := some X, layers := r.1 }, r.2)

/-- The end-to-end per-sample map realised by a forward pass over a layer
list: the composition of the per-layer maps in list order. -/
def chainF (ls : List Layer) (t : Bool) (x : Int) : Int :=
  ls.foldl (fun a l => l.f t a) x

/-- The `prev`/`next` pair `Model.finalize` assigns to layer `i` of `n`
(src/model.py:94-108).  The first branch reads `layers[i+1]` unconditionally,
so with `n = 1` it raises IndexError: `none`. -/
def linkOf (n i : Nat) : Option (Node × Node) :=
  if i = 0 then
    if i + 1 < n then some (Node.sentinel, Node.layer (i + 1)) else none
  else if i < n - 1 then some (Node.layer (i - 1), Node.layer (i + 1))
  else some (Node.layer (i - 1), Node.loss)

/-- The linking loop of `Model.finalize` over the given layer indices; the
first IndexError aborts the whole call. -/
def linksLoop (n : Nat) : List Nat → Option (List (Node × Node))
  | [] => some []
  | i :: is =>
    match linkOf n i, linksLoop n is with
    | some x, some xs => some (x :: xs)
    | _, _ => none

/-- Model.finalize (src/model.py:82-121): fresh input sentinel, build the
`prev`/`next` chain, record the last layer as the terminal activation layer,
collect the trainable layers (`hasattr(layer, "weights")`) in list order,
and set the fused shortcut when the last layer is a `SoftMax` and the loss a
`LossCCE` (the flag is never cleared, hence the `|| m.combined`).  An empty
layer list reaches `self.layers[-1]` and raises IndexError; a one-layer list
raises IndexError inside the loop: both are `none`. -/
def finalizeM (m : Model) : Option Model :=
  let n := m.layers.length
  match linksLoop n (List.range n) with
  | none => none
  | some links =>
    match m.layers.getLast? with
    | none => none
    | some last =>
      some { m with
        sentinelOut := none
        links := links
        trainable :=
          (List.range n).filter (fun i => ((m.layers.get? i).map Layer.hasWeights).getD false)
        activationIdx := n - 1
        combined := (last.isSoftMax && m.lossIsCCE) || m.combined }

/-- The trainable set as a sequence of layer objects: the layers the stored
indices refer to. -/
def trainableLayers (m : Model) : List Layer :=
  m.trainable.filterMap (fun i => m.layers.get? i)

/-- Model.get_parameters (src/model.py:27-33): each trainable layer's
snapshot, in trainable-set order. -/
def getParameters (m : Model) : List Int :=
  m.trainable.filterMap (fun i => (m.layers.get? i).map Layer.weights)

/-- Apply an update to the layer stored at an index (Python mutates the object
the reference points at; out-of-range indices never occur in the source's
uses). -/
def modifyAt (f : Layer → Layer) : List Layer → Nat → List Layer
  | [], _ => []
  | l :: ls, 0 => f l :: ls
  | l :: ls, i + 1 => l :: modifyAt f ls i

/-- Model.update_parameters (src/model.py:66-68): `zip(settings,
self.trainable)` pairs positionally and stops at the shorter sequence; each
pair calls `layer.set(*parameter)`.  There is no length check and no error
path. -/
def updateParameters (m : Model) (settings : List Int) : Model :=
  { m with
    layers := (settings.zip m.trainable).foldl
      (fun ls p => modifyAt (fun l => { l with weights := p.1 }) ls p.2) m.layers }

/-- The per-layer transient-field stripping of `Model.save`
(src/model.py:47-50): pop `inputs`, `output`, `dinputs`, `dweights`,
`dbiases`. -/
def stripLayer (l : Layer) : Layer :=
  { l with inputs := none, output := none, dinputs := none,
           dweights := none, dbiases := none }

/-- Model.save (src/model.py:36-54): `model = copy.deepcopy(self)` (the `let`
rebinding keeps `self` untouched, exactly as the deep copy does), then every
following line mutates `model` only: reset both accumulators, pop the
sentinel's `output` and the loss's `dinputs`, strip every layer's transient
fields.  Returns `(self after the call, the stripped copy that is pickled)`. -/
def save (m : Model) : Model × Model :=
  let model := m
  let model := { model with lossAccSum := 0, lossAccCount := 0 }
  let model := { model with accAccSum := 0, accAccCount := 0 }
  let model := { model with sentinelOut := none }
  let model := { model with lossD := none }
  let model := { model with layers := model.layers.map stripLayer }
  (m, model)

/-- A layer's own `backward` (collaborator contract, spec section 6): record
`dinputs` from the upstream gradient; trainable layers also record weight and
bias gradients. -/
def layerBackward (l : Layer) (u : Int) : Layer :=
  { l with dinputs := some (l.b u),
           dweights := if l.hasWeights then some u else l.dweights,
           dbiases := if l.hasWeights then some u else l.dbiases }

/-- The `layer.next.dinputs` read in `Model.backward` (src/model.py:233,242):
the loss's stored gradient for the last layer, the following layer's stored
`dinputs` otherwise; `none` when the field was never written
(AttributeError). -/
def upstreamOf (m : Model) (i : Nat) : Option Int :=
  if i + 1 = m.layers.length then m.lossD
  else (m.layers.get? (i + 1)).bind Layer.dinputs

/-- The reverse iteration of `Model.backward`: process the given indices in
order, each layer consuming `layer.next.dinputs` and recording its own
gradients; the call is appended to the trace. -/
def backLoop (m : Model) (tr : List Ev) : List Nat → Option (Model × List Ev)
  | [] => some (m, tr)
  | i :: is =>
    match upstreamOf m i, m.layers.get? i with
    | some u, some l =>
      backLoop { m with layers := m.layers.set i (layerBackward l u) }
        (tr ++ [Ev.layB i (l.b u)]) is
    | _, _ => none

/-- Model.backward (src/model.py:221-242), with the trace of collaborator
calls it makes.  Fused mode: call the shortcut's `backward(inputs, targets)`,
assign its result directly as the last layer's `dinputs` (the last layer's
own `backward` is not called), then walk `reversed(self.layers[:-1])`.
Decomposed mode: call `loss.backward(inputs, targets)`, then walk
`reversed(self.layers)`. -/
def backward (m : Model) (inputs targets : List Int) : Option (Model × List Ev) :=
  let n := m.layers.length
  if m.combined then
    let g := m.sccBack inputs targets
    match m.layers.get? (n - 1) with
    | none => none
    | some l =>
      backLoop { m with layers := m.layers.set (n - 1) { l with dinputs := some g } }
        [Ev.sccB inputs targets] ((List.range (n - 1)).reverse)
  else
    let g := m.lossBack inputs targets
    backLoop { m with lossD := some g } [Ev.lossB inputs targets]
      ((List.range n).reverse)

/-- One step of `Model.evaluate` (src/model.py:259-275): slice the validation
batch, forward with `training=False`, accumulate the loss, convert the output
through the terminal activation layer's `predict`, accumulate the accuracy.
Accumulation is modelled as an opaque running sum plus a count. -/
def evalStep (m : Model) (X y : List Int) (bs : Option Nat) (s : Nat) : Option Model :=
  let Xb := stepBatch X bs s
  let yb := stepBatch y bs s
  match forward m Xb false with
  | none => none
  | some (m1, out) =>
    match m1.layers.get? m1.activationIdx with
    | none => none
    | some act =>
      some { m1 with
        lossAccSum := m1.lossAccSum + m1.lossCalc out yb,
        lossAccCount := m1.lossAccCount + 1,
        accAccSum := m1.accAccSum + m1.accCalc (act.pr out) yb,
        accAccCount := m1.accAccCount + 1 }

/-- The step loop of `Model.evaluate`. -/
def evalLoop (m : Model) (X y : List Int) (bs : Option Nat) : List Nat → Option Model
  | [] => some m
  | s :: ss =>
    match evalStep m X y bs s with
    | none => none
    | some m2 => evalLoop m2 X y bs ss

/-- Model.evaluate (src/model.py:245-283): compute the step count, reset both
accumulators, run every step with `training=False`; no backward pass and no
optimizer call appear anywhere in it. -/
def evaluate (m : Model) (X y : List Int) (bs : Option Nat) : Option Model :=
  let steps := stepCount X.length bs
  let m1 := { m with lossAccSum := 0, lossAccCount := 0,
                     accAccSum := 0, accAccCount := 0 }
  evalLoop m1 X y bs (List.range steps)

/-- The step loop of `Model.predict` (src/model.py:299-306): slice, forward
with `training=False`, collect each step's output in order. -/
def predictLoop (m : Model) (X : List Int) (bs : Option Nat) :
    List Nat → Option (Model × List (List Int))
  | [] => some (m, [])
  | s :: ss =>
    let Xb := stepBatch X bs s
    match forward m Xb false with
    | none => none
    | some (m2, out) =>
      match predictLoop m2 X bs ss with
      | none => none
      | some (m3, outs) => some (m3, out :: outs)

/-- Model.predict (src/model.py:286-309): run the step loop, then
`np.vstack(predictions)` concatenates the per-step outputs along the sample
axis (`join`); `np.vstack` on an empty list raises, modelled as `none`. -/
def predict (m : Model) (X : List Int) (bs : Option Nat) : Option (Model × List Int) :=
  let steps := stepCount X.length bs
  match predictLoop m X bs (List.range steps) with
  | none => none
  | some (m2, outs) => if outs.isEmpty then none else some (m2, outs.flatten)

/-- The reporting condition of `Model.train` (src/model.py:181):
`not step % report or step == steps - 1`. -/
def reportP (steps r s : Nat) : Bool :=
  (s % r == 0) || (s == steps - 1)

/-- The optimizer sweep of `Model.train` (src/model.py:176-177): apply the
optimizer's `update` to every trainable layer, in trainable-set order. -/
def optApply (m : Model) : Model :=
  { m with layers := m.trainable.foldl (fun ls i => modifyAt m.optF ls i) m.layers }

/-- One training step of `Model.train` (src/model.py:147-178): slice, forward
with `training=True`, accumulate loss, convert predictions through the
terminal activation layer, accumulate accuracy, backpropagate, then run the
optimizer over the trainable set. -/
def trainStep (m : Model) (X y : List Int) (bs : Option Nat) (s : Nat) : Option Model :=
  let Xb := stepBatch X bs s
  let yb := stepBatch y bs s
  match forward m Xb true with
  | none => none
  | some (m1, out) =>
    match m1.layers.get? m1.activationIdx with
    | none => none
    | some act =>
      let m3 := { m1 with
        lossAccSum := m1.lossAccSum + m1.lossCalc out yb,
        lossAccCount := m1.lossAccCount + 1,
        accAccSum := m1.accAccSum + m1.accCalc (act.pr out) yb,
        accAccCount := m1.accAccCount + 1 }
      match backward m3 out yb with
      | none => none
      | some (m4, _) => some (optApply m4)

/-- The step loop of one epoch of `Model.train` (src/model.py:147-187),
returning the final model and the list of steps on which the per-step report
fired.  `step % report` with `report = 0` raises ZeroDivisionError.  The
report itself is observational: it contributes nothing to the model state. -/
def trainSteps (m : Model) (X y : List Int) (bs : Option Nat) (steps r : Nat) :
    List Nat → Option (Model × List Nat)
  | [] => some (m, [])
  | s :: ss =>
    match trainStep m X y bs s with
    | none => none
    | some m2 =>
      if r = 0 then none
      else
        match trainSteps m2 X y bs steps r ss with
        | none => none
        | some (m3, rs) => some (m3, (if reportP steps r s then [s] else []) ++ rs)

/-- The durable parameter state of a model: the trainable set and every
layer's parameter snapshot. -/
def paramsOf (m : Model) : List Nat × List Int :=
  (m.trainable, m.layers.map Layer.weights)

/-- The layer index a backward-trace event refers to (`none` for the fused
shortcut and the loss). -/
def evIdx : Ev → Option Nat
  | Ev.layB i _ => some i
  | _ => none

/-- The behaviour a fused-mode backward call must exhibit: the shortcut's
`backward` is invoked on the final output and targets (the first and only
non-layer call in the trace), its result is stored directly as the last
layer's `dinputs`, the last layer's own `backward` is never invoked, the
loss's `backward` is never invoked, and the remaining layers run in reverse
list order. -/
def shortcutRun (m : Model) (o t : List Int) : Prop :=
  ∃ m2 tr, backward m o t = some (m2, tr) ∧
    tr.head? = some (Ev.sccB o t) ∧
    ((m2.layers.get? (m.layers.length - 1)).bind Layer.dinputs)
      = some (m.sccBack o t) ∧
    (∀ g, Ev.layB (m.layers.length - 1) g ∉ tr) ∧
    (∀ o2 t2, Ev.lossB o2 t2 ∉ tr) ∧
    tr.map evIdx
      = none :: ((List.range (m.layers.length - 1)).reverse.map some)

/-- A concrete layer with everything opaque made trivial. -/
def mkLayer (sm tw : Bool) (w : Int) : Layer :=
  { isSoftMax := sm, hasWeights := tw, weights := w,
    f := fun _ x => x, b := fun g => g, pr := fun o => o,
    inputs := none, output := none, dinputs := none,
    dweights := none, dbiases := none }

/-- A concrete model over the given layers with opaque collaborators made
trivial and no graph-derived state yet. -/
def mkModel (ls : List Layer) (cce : Bool) : Model :=
  { layers := ls, lossIsCCE := cce,
    lossCalc := fun _ _ => 0, lossBack := fun _ _ => 1,
    sccBack := fun _ _ => 2, accCalc := fun _ _ => 0,
    optF := fun l => l,
    lossAccSum := 0, lossAccCount := 0, accAccSum := 0, accAccCount := 0,
    lossD := none, sentinelOut := none,
    links := [], trainable := [], activationIdx := 0, combined := false }

/-- A dense-like trainable layer. -/
def layerA : Layer := mkLayer false true 5

/-- A second dense-like trainable layer with different parameters. -/
def layerC : Layer := mkLayer false true 6

/-- A softmax-like output layer (not trainable). -/
def layerS : Layer := mkLayer true false 0

/-- A two-layer dense-into-softmax model with a CCE-like loss. -/
def modelTwo : Model := mkModel [layerA, layerS] true

/-- What `finalize` turns `modelTwo` into. -/
def modelTwoFin : Model :=
  { modelTwo with
    links := [(Node.sentinel, Node.layer 1), (Node.layer 0, Node.loss)],
    trainable := [0], activationIdx := 1, combined := true }

/-- A model holding the same layer object twice (in Python:
`l = Dense(...); model.add(l); model.add(l)`). -/
def modelDup : Model := mkModel [layerA, layerA] false

/-- What `finalize` turns `modelDup` into. -/
def modelDupFin : Model :=
  { modelDup with
    links := [(Node.sentinel, Node.layer 1), (Node.layer 0, Node.loss)],
    trainable := [0, 1], activationIdx := 1, combined := false }

/-- A one-layer model (never survives `finalize`). -/
def modelSingle : Model := mkModel [layerA] false

/-- A finalized-shaped one-layer model, used to drive the loops directly. -/
def modelOne : Model :=
  { mkModel [layerA] false with trainable := [0], activationIdx := 0 }

/-- A finalized-shaped model with two trainable layers. -/
def modelPair : Model :=
  { mkModel [layerA, layerC] false with trainable := [0, 1], activationIdx := 1 }

/-- C1: `update_parameters` with a settings sequence of mismatched length
completes without any error and silently truncates the positional pairing:
with two trainable layers and a single setting, the call partially updates
the first layer only and still reports success; with an over-long settings
list the extras are silently ignored. -/
theorem updateParameters_truncates :
    (([9] : List Int).length ≠ modelPair.trainable.length ∧
      (updateParameters modelPair [9]).layers.map Layer.weights = [9, 6]) ∧
    (([9, 8, 7] : List Int).length ≠ modelPair.trainable.length ∧
      (updateParameters modelPair [9, 8, 7]).layers.map Layer.weights = [9, 8]) ∧
    (([] : List Int).length ≠ modelPair.trainable.length ∧
      updateParameters modelPair [] = modelPair) :=
  ⟨⟨by decide, rfl⟩, ⟨by decide, rfl⟩, ⟨by decide, rfl⟩⟩

/-- C10: `save` leaves the live model unchanged — the accumulator resets and
all transient-field stripping land only on the deep copy, which keeps the
durable parameter state and has every transient field cleared. -/
theorem save_frame (m : Model) :
    (save m).1 = m ∧
    paramsOf (save m).2 = paramsOf m ∧
    (save m).2.sentinelOut = none ∧
    (save m).2.lossD = none ∧
    (save m).2.lossAccSum = 0 ∧ (save m).2.lossAccCount = 0 ∧
    (save m).2.accAccSum = 0 ∧ (save m).2.accAccCount = 0 ∧
    ((save m).2.layers.all fun l =>
      l.inputs.isNone && l.output.isNone && l.dinputs.isNone &&
      l.dweights.isNone && l.dbiases.isNone) = true := by
  refine ⟨rfl, ?_, rfl, rfl, rfl, rfl, rfl, rfl, ?_⟩
  · simp [save, paramsOf, stripLayer, List.map_map, Function.comp_def]
  · simp [save, stripLayer, List.all_eq_true]

/-- C2 counterexample: a singleton layer list makes the linking loop of
`finalize` fail at index 0 (the first branch reads `layers[1]`: IndexError)
instead of linking the single layer between the sentinel and the loss. -/
theorem finalize_single :
    finalizeM modelSingle = none ∧ ¬ ∃ m, finalizeM modelSingle = some m := by
  constructor
  · rfl
  · rintro ⟨m, hm⟩
    rw [show finalizeM modelSingle = none from rfl] at hm
    exact Option.noConfusion hm

/-- Helper: with a truthy batch size, the step count is the ceiling division
of the dataset size, the final slice start lies inside the dataset, and the
final slice size is at most one batch. -/
theorem stepCount_facts (n b : Nat) (hb : 0 < b) (hn : 0 < n) :
    stepCount n (some b) = (n + b - 1) / b ∧
    (stepCount n (some b) - 1) * b < n ∧
    n - (stepCount n (some b) - 1) * b ≤ b ∧
    0 < stepCount n (some b) := by
  have htr : truthy (some b) = true := by
    simp [truthy]
    omega
  have hq := Nat.div_add_mod n b
  have hq2 : (n / b) * b + n % b = n := by
    rw [Nat.mul_comm (n / b) b]; exact hq
  have hr : n % b < b := Nat.mod_lt n hb
  have hsc : stepCount n (some b) =
      if (n / b) * b < n then n / b + 1 else n / b := by
    simp [stepCount, htr]
  rcases Nat.eq_zero_or_pos (n % b) with h0 | h0
  · have hdvd : b ≤ n := Nat.le_of_dvd hn (Nat.dvd_of_mod_eq_zero h0)
    have hq1 : 0 < n / b := Nat.div_pos hdvd hb
    have hcond : ¬ (n / b) * b < n := by omega
    have hsc' : stepCount n (some b) = n / b := by rw [hsc, if_neg hcond]
    have hsub : (n / b - 1) * b = (n / b) * b - b := by
      rw [Nat.sub_mul, Nat.one_mul]
    have hceil : (n + b - 1) / b = n / b := by
      have hrw : n + b - 1 = (b - 1) + b * (n / b) := by omega
      rw [hrw, Nat.add_mul_div_left _ _ hb, Nat.div_eq_of_lt (by omega),
        Nat.zero_add]
    refine ⟨by rw [hsc', hceil], ?_, ?_, by rw [hsc']; exact hq1⟩
    · rw [hsc', hsub]; omega
    · rw [hsc', hsub]; omega
  · have hcond : (n / b) * b < n := by omega
    have hsc' : stepCount n (some b) = n / b + 1 := by rw [hsc, if_pos hcond]
    have hmul : b * (n / b + 1) = b * (n / b) + b := Nat.mul_succ b (n / b)
    have hsub : (n / b + 1 - 1) * b = (n / b) * b := by simp
    have hceil : (n + b - 1) / b = n / b + 1 := by
      have hrw : n + b - 1 = (n % b - 1) + b * (n / b + 1) := by omega
      rw [hrw, Nat.add_mul_div_left _ _ hb, Nat.div_eq_of_lt (by omega),
        Nat.zero_add]
    refine ⟨by rw [hsc', hceil], ?_, ?_, by rw [hsc']; exact Nat.succ_pos _⟩
    · rw [hsc', hsub]; omega
    · rw [hsc', hsub]; omega

/-- Helper: the shape of a truthy-batch slice. -/
theorem stepBatch_some (X : List α) (b s : Nat) (hb : 0 < b) :
    stepBatch X (some b) s = (X.drop (s * b)).take b := by
  have htr : truthy (some b) = true := by
    simp [truthy]
    omega
  simp [stepBatch, htr]

/-- C4: for a dataset of size N ≥ 1 and a batch size B ≥ 1 the loops compute
ceil(N/B) steps, every step's slice has at most B samples, the final slice
has exactly N − (steps−1)·B samples, which is positive and at most B (the
short final batch is processed, never dropped); with no batch size given
there is exactly one step over the whole dataset. -/
theorem batch_slicing (X : List Int) (b : Nat)
    (hn : 1 ≤ X.length) (hb : 1 ≤ b) :
    stepCount X.length (some b) = (X.length + b - 1) / b ∧
    (((List.range (stepCount X.length (some b))).all
        fun s => (stepBatch X (some b) s).length ≤ b) = true) ∧
    (stepBatch X (some b) (stepCount X.length (some b) - 1)).length
      = X.length - (stepCount X.length (some b) - 1) * b ∧
    0 < X.length - (stepCount X.length (some b) - 1) * b ∧
    X.length - (stepCount X.length (some b) - 1) * b ≤ b ∧
    stepCount X.length none = 1 ∧
    stepBatch X none 0 = X := by
  obtain ⟨hceil, hlt, hle, hpos⟩ := stepCount_facts X.length b hb hn
  have hlen : ∀ s, (stepBatch X (some b) s).length
      = min b (X.length - s * b) := by
    intro s
    rw [stepBatch_some X b s hb]
    simp [List.length_take, List.length_drop]
  refine ⟨hceil, ?_, ?_, ?_, ?_, rfl, rfl⟩
  · rw [List.all_eq_true]
    intro s _
    simp only [decide_eq_true_eq]
    rw [hlen s]
    exact Nat.min_le_left _ _
  · rw [hlen _]
    omega
  · omega
  · omega

/-- C4 witness: the spec's own example, 8 samples at batch size 3. -/
theorem batch_slicing_ok :
    1 ≤ ([1, 2, 3, 4, 5, 6, 7, 8] : List Int).length ∧ 1 ≤ 3 ∧
    (stepCount ([1, 2, 3, 4, 5, 6, 7, 8] : List Int).length (some 3) = (([1, 2, 3, 4, 5, 6, 7, 8] : List Int).length + 3 - 1) / 3 ∧
     (((List.range (stepCount ([1, 2, 3, 4, 5, 6, 7, 8] : List Int).length (some 3))).all
         fun s => (stepBatch ([1, 2, 3, 4, 5, 6, 7, 8] : List Int) (some 3) s).length ≤ 3) = true) ∧
     (stepBatch ([1, 2, 3, 4, 5, 6, 7, 8] : List Int) (some 3) (stepCount ([1, 2, 3, 4, 5, 6, 7, 8] : List Int).length (some 3) - 1)).length
       = ([1, 2, 3, 4, 5, 6, 7, 8] : List Int).length - (stepCount ([1, 2, 3, 4, 5, 6, 7, 8] : List Int).length (some 3) - 1) * 3 ∧
     0 < ([1, 2, 3, 4, 5, 6, 7, 8] : List Int).length - (stepCount ([1, 2, 3, 4, 5, 6, 7, 8] : List Int).length (some 3) - 1) * 3 ∧
     ([1, 2, 3, 4, 5, 6, 7, 8] : List Int).length - (stepCount ([1, 2, 3, 4, 5, 6, 7, 8] : List Int).length (some 3) - 1) * 3 ≤ 3 ∧
     stepCount ([1, 2, 3, 4, 5, 6, 7, 8] : List Int).length none = 1 ∧
     stepBatch ([1, 2, 3, 4, 5, 6, 7, 8] : List Int) none 0 = [1, 2, 3, 4, 5, 6, 7, 8]) :=
  ⟨by decide, by decide,
    batch_slicing [1, 2, 3, 4, 5, 6, 7, 8] 3 (by decide) (by decide)⟩

/-- C3 counterexample: a batch size of zero does not make the call fail.
`if batches:` is falsy for `0`, so the division is never reached and
`evaluate`, `predict` and the training step loop all complete normally,
processing the whole dataset in a single step. -/
theorem zero_batch_no_error :
    stepCount ([1, 2, 3] : List Int).length (some 0) = 1 ∧
    (evaluate modelOne [1, 2, 3] [1, 2, 3] (some 0)).isSome = true ∧
    (predict modelOne [1, 2, 3] (some 0)).isSome = true ∧
    (trainSteps modelOne [1, 2, 3] [1, 2, 3] (some 0) 1 1
      (List.range 1)).isSome = true := by
  refine ⟨rfl, rfl, rfl, rfl⟩

/-- Helper: the training step loop cannot tell a zero batch size from no
batch size. -/
theorem trainSteps_zero_batch (m : Model) (X y : List Int) (steps r : Nat) :
    ∀ L, trainSteps m X y (some 0) steps r L = trainSteps m X y none steps r L := by
  intro L
  induction L generalizing m with
  | nil => rfl
  | cons s ss ih =>
    simp only [trainSteps]
    have hstep : trainStep m X y (some 0) s = trainStep m X y none s := rfl
    rw [hstep]
    cases trainStep m X y none s with
    | none => rfl
    | some m2 =>
      simp only
      rw [ih m2]

/-- C3 (amended): with a batch size of zero the step-count computation never
divides by zero, because Python truthiness routes `batches = 0` through the
unbatched branch: one step processes the entire dataset, and `train`,
`evaluate` and `predict` behave exactly as if no batch size had been given —
the call succeeds instead of being rejected. -/
theorem zero_batch_unbatched (m : Model) (X y : List Int) (n s steps r : Nat)
    (L : List Nat) :
    stepCount n (some 0) = 1 ∧
    stepBatch X (some 0) s = X ∧
    evaluate m X y (some 0) = evaluate m X y none ∧
    predict m X (some 0) = predict m X none ∧
    trainSteps m X y (some 0) steps r L = trainSteps m X y none steps r L :=
  ⟨rfl, rfl, rfl, rfl, trainSteps_zero_batch m X y steps r L⟩

/-- Helper: the first layer's links, for at least two layers. -/
theorem linkOf_zero (n : Nat) (h2 : 2 ≤ n) :
    linkOf n 0 = some (Node.sentinel, Node.layer 1) := by
  have hc : 0 + 1 < n := by omega
  simp [linkOf, hc]

/-- Helper: the last layer's links, for at least two layers. -/
theorem linkOf_last (n : Nat) (h2 : 2 ≤ n) :
    linkOf n (n - 1) = some (Node.layer (n - 2), Node.loss) := by
  have h1 : ¬ (n - 1 = 0) := by omega
  have h3 : ¬ (n - 1 < n - 1) := by omega
  simp only [linkOf, if_neg h1, if_neg h3]
  have : n - 1 - 1 = n - 2 := by omega
  rw [this]

/-- Helper: an interior layer's links. -/
theorem linkOf_mid (n i : Nat) (h0 : 0 < i) (hi : i + 1 < n) :
    linkOf n i = some (Node.layer (i - 1), Node.layer (i + 1)) := by
  have h1 : ¬ (i = 0) := by omega
  have h3 : i < n - 1 := by omega
  simp only [linkOf, if_neg h1, if_pos h3]

/-- Helper: with at least two layers, every index links without an
IndexError. -/
theorem linkOf_isSome (n i : Nat) (h2 : 2 ≤ n) (hi : i < n) :
    (linkOf n i).isSome = true := by
  rcases Nat.eq_zero_or_pos i with h | h
  · subst h; rw [linkOf_zero n h2]; rfl
  · rcases Nat.lt_or_ge (i + 1) n with h' | h'
    · rw [linkOf_mid n i h h']; rfl
    · have : i = n - 1 := by omega
      subst this; rw [linkOf_last n h2]; rfl

/-- Helper: when no index raises, the linking loop returns the per-index
links in order. -/
theorem linksLoop_map (n : Nat) :
    ∀ L : List Nat, (∀ i ∈ L, (linkOf n i).isSome = true) →
      linksLoop n L
        = some (L.map fun i => (linkOf n i).getD (Node.loss, Node.loss)) := by
  intro L h
  induction L with
  | nil => rfl
  | cons i is ih =>
    obtain ⟨x, hx⟩ := Option.isSome_iff_exists.mp (h i (List.mem_cons_self i is))
    have his := ih fun j hj => h j (List.mem_cons_of_mem _ hj)
    simp [linksLoop, hx, his]

/-- Helper: the value `finalize` computes on any layer list of length at
least two. -/
theorem finalizeM_eq (m0 : Model) (h2 : 2 ≤ m0.layers.length) (last : Layer)
    (hlast : m0.layers.getLast? = some last) :
    finalizeM m0 = some { m0 with
      sentinelOut := none,
      links := (List.range m0.layers.length).map
        (fun i => (linkOf m0.layers.length i).getD (Node.loss, Node.loss)),
      trainable := (List.range m0.layers.length).filter
        (fun i => ((m0.layers.get? i).map Layer.hasWeights).getD false),
      activationIdx := m0.layers.length - 1,
      combined := (last.isSoftMax && m0.lossIsCCE) || m0.combined } := by
  have hLL := linksLoop_map m0.layers.length (List.range m0.layers.length)
    (fun i hi => linkOf_isSome m0.layers.length i h2 (List.mem_range.mp hi))
  simp only [finalizeM]
  rw [hLL, hlast]

/-- Helper: a nonempty list has a last element. -/
theorem getLast?_of_ne_nil {α : Type} {l : List α} (h : l ≠ []) :
    ∃ x, l.getLast? = some x := by
  cases hl : l.getLast? with
  | none => exact absurd (List.getLast?_eq_none_iff.mp hl) h
  | some x => exact ⟨x, rfl⟩

/-- C2 (amended): for every layer list of length at least two, `finalize`
links the chain as described — the first layer's `prev` is the sentinel (and
its `next` is layer 1), the last layer's `next` is the loss object and it is
recorded as the terminal activation layer, and every interior layer's
`prev`/`next` point at its list neighbours.  A one-layer list instead raises
an IndexError (see the counterexample). -/
theorem finalize_links (m0 : Model) (h2 : 2 ≤ m0.layers.length) :
    ∃ m, finalizeM m0 = some m ∧
      m.links.length = m0.layers.length ∧
      m.links.get? 0 = some (Node.sentinel, Node.layer 1) ∧
      m.links.get? (m0.layers.length - 1)
        = some (Node.layer (m0.layers.length - 2), Node.loss) ∧
      m.activationIdx = m0.layers.length - 1 ∧
      ∀ i, 0 < i → i + 1 < m0.layers.length →
        m.links.get? i = some (Node.layer (i - 1), Node.layer (i + 1)) := by
  have hne : m0.layers ≠ [] := by
    intro h; rw [h] at h2; simp at h2
  obtain ⟨last, hlast⟩ := getLast?_of_ne_nil hne
  refine ⟨_, finalizeM_eq m0 h2 last hlast, ?_, ?_, ?_, rfl, ?_⟩
  · simp
  · rw [List.get?_map, List.get?_range (by omega), Option.map_some',
      linkOf_zero _ h2]
    rfl
  · rw [List.get?_map, List.get?_range (by omega), Option.map_some',
      linkOf_last _ h2]
    rfl
  · intro i h0 hi
    rw [List.get?_map, List.get?_range (by omega), Option.map_some',
      linkOf_mid _ i h0 hi]
    rfl

/-- C2 witness: the two-layer model, fully evaluated. -/
theorem finalize_links_ok :
    2 ≤ modelTwo.layers.length ∧
    (∃ m, finalizeM modelTwo = some m ∧
      m.links.length = modelTwo.layers.length ∧
      m.links.get? 0 = some (Node.sentinel, Node.layer 1) ∧
      m.links.get? (modelTwo.layers.length - 1)
        = some (Node.layer (modelTwo.layers.length - 2), Node.loss) ∧
      m.activationIdx = modelTwo.layers.length - 1 ∧
      ∀ i, 0 < i → i + 1 < modelTwo.layers.length →
        m.links.get? i = some (Node.layer (i - 1), Node.layer (i + 1))) :=
  ⟨by decide, finalize_links modelTwo (by decide)⟩

/-- Helper: filtering a mapped list is mapping the filtered list. -/
theorem filter_comp_map {α β : Type} (p : β → Bool) (f : α → β) :
    ∀ r : List α, (r.map f).filter p = (r.filter fun i => p (f i)).map f := by
  intro r
  induction r with
  | nil => rfl
  | cons a r ih =>
    by_cases h : p (f a) <;> simp [List.filter_cons, h, ih]

/-- Helper: filterMap over a mapped list composes the two functions. -/
theorem filterMap_comp_map {α β γ : Type} (g : β → Option γ) (f : α → β) :
    ∀ r : List α, (r.map f).filterMap g = r.filterMap fun i => g (f i) := by
  intro r
  induction r with
  | nil => rfl
  | cons a r ih =>
    cases hg : g (f a) <;> simp [List.filterMap_cons, hg, ih]

/-- Helper: resolving the trainable indices collected by `finalize` back to
layer objects yields exactly the trainable layers, in list order. -/
theorem trainIdx_layers : ∀ L : List Layer,
    ((List.range L.length).filter
        (fun i => ((L.get? i).map Layer.hasWeights).getD false)).filterMap
      (fun i => L.get? i)
    = L.filter fun l => l.hasWeights := by
  intro L
  induction L with
  | nil => rfl
  | cons a L ih =>
    rw [List.length_cons, List.range_succ_eq_map, List.filter_cons]
    have hp0 : (((a :: L).get? 0).map Layer.hasWeights).getD false
        = a.hasWeights := rfl
    rw [filter_comp_map]
    simp only [List.get?_cons_succ]
    cases ha : a.hasWeights with
    | true =>
      rw [hp0, ha, if_pos rfl, List.filterMap_cons, filterMap_comp_map]
      simp only [List.get?_cons_succ, List.get?_cons_zero]
      rw [ih, List.filter_cons, ha, if_pos rfl]
    | false =>
      rw [hp0, ha, if_neg (by simp), filterMap_comp_map]
      simp only [List.get?_cons_succ]
      rw [ih, List.filter_cons, ha, if_neg (by simp)]

/-- Helper: what a successful `finalize` stores in `trainable`, and that it
leaves the layer list itself untouched. -/
theorem finalizeM_trainable (m0 m : Model) (hf : finalizeM m0 = some m) :
    m.trainable = (List.range m0.layers.length).filter
      (fun i => ((m0.layers.get? i).map Layer.hasWeights).getD false) ∧
    m.layers = m0.layers := by
  simp only [finalizeM] at hf
  cases hL : linksLoop m0.layers.length (List.range m0.layers.length) with
  | none => rw [hL] at hf; exact absurd hf (by simp)
  | some links =>
    rw [hL] at hf
    cases hlast : m0.layers.getLast? with
    | none => rw [hlast] at hf; exact absurd hf (by simp)
    | some last =>
      rw [hlast] at hf
      have hm := Option.some.inj hf
      exact ⟨by rw [← hm], by rw [← hm]⟩

/-- C7 counterexample: registering the same layer object twice (in Python,
two `model.add(l)` calls with one `l`) makes `finalize` build a trainable
set that contains that object twice — a duplicate. -/
theorem trainable_dup :
    finalizeM modelDup = some modelDupFin ∧
    trainableLayers modelDupFin = [layerA, layerA] ∧
    ¬ (trainableLayers modelDupFin).Nodup := by
  refine ⟨rfl, rfl, ?_⟩
  rw [show trainableLayers modelDupFin = [layerA, layerA] from rfl]
  simp [List.nodup_cons]

/-- C7 (amended): for every layer list without duplicate objects, the
trainable set built by `finalize` is exactly the order-preserving
subsequence of layers exposing the trainable capability, and it has no
duplicates.  (With a duplicated layer object the set duplicates it too — see
the counterexample.) -/
theorem trainable_filter (m0 m : Model) (hnd : m0.layers.Nodup)
    (hf : finalizeM m0 = some m) :
    trainableLayers m = m0.layers.filter (fun l => l.hasWeights) ∧
    List.Sublist (trainableLayers m) m0.layers ∧
    (∀ l, l ∈ trainableLayers m ↔ l ∈ m0.layers ∧ l.hasWeights = true) ∧
    (trainableLayers m).Nodup := by
  obtain ⟨htr, hlay⟩ := finalizeM_trainable m0 m hf
  have heq : trainableLayers m = m0.layers.filter (fun l => l.hasWeights) := by
    rw [trainableLayers, htr, hlay, trainIdx_layers]
  refine ⟨heq, ?_, ?_, ?_⟩
  · rw [heq]; exact List.filter_sublist _
  · intro l; rw [heq]; exact List.mem_filter
  · rw [heq]; exact hnd.filter _

/-- C7 witness: the two-layer model with two distinct layer objects. -/
theorem trainable_filter_ok :
    modelTwo.layers.Nodup ∧ finalizeM modelTwo = some modelTwoFin ∧
    (trainableLayers modelTwoFin
        = modelTwo.layers.filter (fun l => l.hasWeights) ∧
      List.Sublist (trainableLayers modelTwoFin) modelTwo.layers ∧
      (∀ l, l ∈ trainableLayers modelTwoFin ↔
        l ∈ modelTwo.layers ∧ l.hasWeights = true) ∧
      (trainableLayers modelTwoFin).Nodup) := by
  have hnd : modelTwo.layers.Nodup := by
    show ([layerA, layerS] : List Layer).Nodup
    refine List.nodup_cons.mpr ⟨?_, List.nodup_singleton _⟩
    intro hmem
    rw [List.mem_singleton] at hmem
    exact absurd (congrArg Layer.hasWeights hmem) (by decide)
  exact ⟨hnd, rfl, trainable_filter modelTwo modelTwoFin hnd rfl⟩

/-- Helper: running the reverse loop over indices `i, i-1, ..., 0` succeeds
whenever index `i` has its upstream gradient available, appends exactly one
layer-backward event per index in descending order, and touches no layer
above `i`. -/
theorem backLoop_run : ∀ (i : Nat) (m : Model) (tr : List Ev),
    i < m.layers.length → (upstreamOf m i).isSome = true →
    ∃ m2 tl, backLoop m tr ((List.range (i + 1)).reverse) = some (m2, tr ++ tl) ∧
      tl.map evIdx = (List.range (i + 1)).reverse.map some ∧
      m2.layers.length = m.layers.length ∧
      (∀ j, i < j → m2.layers.get? j = m.layers.get? j) ∧
      m2.lossD = m.lossD := by
  intro i
  induction i with
  | zero =>
    intro m tr hi hup
    obtain ⟨u, hu⟩ := Option.isSome_iff_exists.mp hup
    cases hl : m.layers.get? 0 with
    | none => exact absurd (List.get?_eq_none.mp hl) (by omega)
    | some l =>
      rw [show (List.range 1).reverse = [0] from rfl]
      simp only [backLoop, hu, hl]
      exact ⟨_, [Ev.layB 0 (l.b u)], rfl, rfl, by simp,
        fun j hj => List.get?_set_ne _ _ (by omega), rfl⟩
  | succ i ih =>
    intro m tr hi hup
    have hrev : (List.range (i + 2)).reverse
        = (i + 1) :: (List.range (i + 1)).reverse := by
      rw [List.range_succ, List.reverse_append]
      rfl
    obtain ⟨u, hu⟩ := Option.isSome_iff_exists.mp hup
    cases hl : m.layers.get? (i + 1) with
    | none => exact absurd (List.get?_eq_none.mp hl) (by omega)
    | some l =>
      rw [hrev]
      simp only [backLoop, hu, hl]
      have hlen' : ({ m with
          layers := m.layers.set (i + 1) (layerBackward l u) } : Model).layers.length
          = m.layers.length := by
        simp
      have hup' : (upstreamOf { m with
          layers := m.layers.set (i + 1) (layerBackward l u) } i).isSome = true := by
        rw [upstreamOf]
        have hne : ¬ (i + 1 = ({ m with
            layers := m.layers.set (i + 1) (layerBackward l u) } : Model).layers.length) := by
          rw [hlen']; omega
        rw [if_neg hne]
        have hset : ({ m with
            layers := m.layers.set (i + 1) (layerBackward l u) } : Model).layers.get? (i + 1)
            = some (layerBackward l u) :=
          List.get?_set_eq_of_lt _ (by omega)
        rw [hset]
        rfl
      obtain ⟨m2, tl, heq, hmap, hlen2, hpre, hlossD⟩ :=
        ih _ (tr ++ [Ev.layB (i + 1) (l.b u)]) (by rw [hlen']; omega) hup'
      refine ⟨m2, Ev.layB (i + 1) (l.b u) :: tl, ?_, ?_, ?_, ?_, ?_⟩
      · rw [heq, List.append_assoc]
        rfl
      · simp [hmap, evIdx]
      · rw [hlen2, hlen']
      · intro j hj
        rw [hpre j (by omega)]
        exact List.get?_set_ne _ _ (by omega)
      · rw [hlossD]

/-- Helper: what a successful `finalize` stores in `combined`, together with
the facts about the surviving model needed to run `backward` on it. -/
theorem finalizeM_combined (m0 m : Model) (hf : finalizeM m0 = some m) :
    2 ≤ m0.layers.length ∧
    m.layers = m0.layers ∧
    m.lossIsCCE = m0.lossIsCCE ∧
    m.sccBack = m0.sccBack ∧
    (∃ last, m0.layers.getLast? = some last ∧
      m.combined = ((last.isSoftMax && m0.lossIsCCE) || m0.combined)) := by
  simp only [finalizeM] at hf
  cases hL : linksLoop m0.layers.length (List.range m0.layers.length) with
  | none => rw [hL] at hf; exact absurd hf (by simp)
  | some links =>
    rw [hL] at hf
    cases hlast : m0.layers.getLast? with
    | none => rw [hlast] at hf; exact absurd hf (by simp)
    | some last =>
      rw [hlast] at hf
      have hm := Option.some.inj hf
      have h2 : 2 ≤ m0.layers.length := by
        by_contra hlt
        have h1 : m0.layers.length = 1 := by
          have hne : m0.layers ≠ [] := by
            intro h
            rw [h] at hlast
            exact Option.noConfusion hlast
          have : 0 < m0.layers.length := List.length_pos.mpr hne
          omega
        rw [h1] at hL
        rw [show linksLoop 1 (List.range 1) = none from rfl] at hL
        exact Option.noConfusion hL
      exact ⟨h2, by rw [← hm], by rw [← hm], by rw [← hm],
        ⟨last, rfl, by rw [← hm]⟩⟩

/-- C5: after a first call to `finalize` (the shortcut reference starts out
null), the fused shortcut is non-null if and only if the last layer is of
the softmax variant and the loss of the categorical-cross-entropy variant;
and whenever the shortcut is present, `backward` invokes the shortcut's
`backward` on (final_output, targets), assigns its result directly as the
last layer's `dinputs`, never calls the last layer's own `backward` (nor the
loss's), and then runs backward over exactly the remaining layers in reverse
list order. -/
theorem combined_shortcut (m0 m : Model) (o t : List Int)
    (hc0 : m0.combined = false) (hf : finalizeM m0 = some m) :
    (m.combined = true ↔
      ((m.layers.getLast?.map Layer.isSoftMax).getD false = true ∧
        m.lossIsCCE = true)) ∧
    (m.combined = true → shortcutRun m o t) := by
  obtain ⟨h2, hlay, hcce, hscc, last, hlast, hcomb⟩ := finalizeM_combined m0 m hf
  have hcomb' : m.combined = (last.isSoftMax && m0.lossIsCCE) := by
    rw [hcomb, hc0, Bool.or_false]
  have hn : 2 ≤ m.layers.length := by rw [hlay]; exact h2
  constructor
  · rw [hcomb', hlay, hlast, hcce]
    simp [Bool.and_eq_true]
  · intro hcT
    cases hl : m.layers.get? (m.layers.length - 1) with
    | none => exact absurd (List.get?_eq_none.mp hl) (by omega)
    | some l =>
      have hsplit : m.layers.length - 1 = (m.layers.length - 2) + 1 := by omega
      have hup : (upstreamOf { m with layers := (m.layers.set (m.layers.length - 1)
          ({ l with dinputs := some (m.sccBack o t) })) }
            (m.layers.length - 2)).isSome = true := by
        simp only [upstreamOf, List.length_set]
        rw [if_neg (by omega), ← hsplit,
          List.get?_set_eq_of_lt _ (by omega)]
        rfl
      obtain ⟨m2, tl, heq, hmap, hlen2, hpre, hlossD⟩ :=
        backLoop_run (m.layers.length - 2)
          { m with layers := (m.layers.set (m.layers.length - 1)
              ({ l with dinputs := some (m.sccBack o t) })) }
          [Ev.sccB o t] (by simp only [List.length_set]; omega) hup
      have hbw : backward m o t = some (m2, Ev.sccB o t :: tl) := by
        rw [← hsplit] at heq
        simp only [backward]
        rw [if_pos hcT, hl]
        exact heq
      have hget : m2.layers.get? (m.layers.length - 1)
          = some { l with dinputs := some (m.sccBack o t) } := by
        rw [hpre (m.layers.length - 1) (by omega)]
        exact List.get?_set_eq_of_lt _ (by omega)
      refine ⟨m2, Ev.sccB o t :: tl, hbw, rfl, ?_, ?_, ?_, ?_⟩
      · rw [hget]
        rfl
      · intro g hg
        rcases List.mem_cons.mp hg with h | h
        · exact Ev.noConfusion h
        · have hmem : evIdx (Ev.layB (m.layers.length - 1) g) ∈ tl.map evIdx :=
            List.mem_map_of_mem _ h
          rw [hmap] at hmem
          simp only [evIdx, List.mem_map, List.mem_reverse,
            List.mem_range] at hmem
          obtain ⟨j, hj, hjeq⟩ := hmem
          have : j = m.layers.length - 1 := Option.some.inj hjeq
          omega
      · intro o2 t2 hg
        rcases List.mem_cons.mp hg with h | h
        · exact Ev.noConfusion h
        · have hmem : evIdx (Ev.lossB o2 t2) ∈ tl.map evIdx :=
            List.mem_map_of_mem _ h
          rw [hmap] at hmem
          simp only [evIdx, List.mem_map] at hmem
          obtain ⟨j, _, hjeq⟩ := hmem
          exact Option.noConfusion hjeq
      · show evIdx (Ev.sccB o t) :: tl.map evIdx
          = none :: ((List.range (m.layers.length - 1)).reverse.map some)
        rw [hmap, hsplit]
        rfl

/-- C5 witness: the dense-into-softmax model with a CCE-like loss, fully
evaluated through `finalize` and `backward`. -/
theorem combined_shortcut_ok :
    modelTwo.combined = false ∧ finalizeM modelTwo = some modelTwoFin ∧
    ((modelTwoFin.combined = true ↔
      ((modelTwoFin.layers.getLast?.map Layer.isSoftMax).getD false = true ∧
        modelTwoFin.lossIsCCE = true)) ∧
    (modelTwoFin.combined = true → shortcutRun modelTwoFin [3] [1])) :=
  ⟨rfl, rfl, combined_shortcut modelTwo modelTwoFin [3] [1] rfl rfl⟩

/-- Helper: one pass of the forward loop computes the composed per-sample
map, and only rewrites the transient `inputs`/`output` fields: per-layer
maps, parameters and the layer count are untouched. -/
theorem runLayers_inv (t : Bool) : ∀ (L : List Layer) (x : List Int),
    (runLayers t x L).2 = x.map (chainF L t) ∧
    (runLayers t x L).1.map Layer.f = L.map Layer.f ∧
    (runLayers t x L).1.map Layer.weights = L.map Layer.weights ∧
    (runLayers t x L).1.length = L.length := by
  intro L
  induction L with
  | nil =>
    intro x
    refine ⟨?_, rfl, rfl, rfl⟩
    show x = x.map (chainF [] t)
    rw [show chainF [] t = fun a => a from rfl, List.map_id']
  | cons l ls ih =>
    intro x
    obtain ⟨h1, h2, h3, h4⟩ := ih (x.map (l.f t))
    simp only [runLayers]
    refine ⟨?_, ?_, ?_, ?_⟩
    · rw [h1, List.map_map]
      rfl
    · simp only [List.map_cons, h2]
    · simp only [List.map_cons, h3]
    · simp only [List.length_cons, h4]

/-- Helper: a successful `forward` returns the composed per-sample map of the
batch and changes nothing but transient fields. -/
theorem forward_inv (m : Model) (X : List Int) (t : Bool) (m1 : Model)
    (out : List Int) (hf : forward m X t = some (m1, out)) :
    out = X.map (chainF m.layers t) ∧
    m1.layers.map Layer.f = m.layers.map Layer.f ∧
    m1.layers.map Layer.weights = m.layers.map Layer.weights ∧
    m1.layers.length = m.layers.length ∧
    m1.trainable = m.trainable ∧
    m1.activationIdx = m.activationIdx ∧
    m1.lossCalc = m.lossCalc ∧ m1.accCalc = m.accCalc := by
  cases hL : m.layers with
  | nil =>
    have hnone : forward m X t = none := by
      simp only [forward, hL]
    rw [hnone] at hf
    exact Option.noConfusion hf
  | cons l ls =>
    have he : forward m X t = some
        ({ m with sentinelOut := some X, layers := (runLayers t X (l :: ls)).1 },
          (runLayers t X (l :: ls)).2) := by
      simp only [forward, hL]
    rw [he] at hf
    have hp := Option.some.inj hf
    have hm1 : m1
        = { m with sentinelOut := some X, layers := (runLayers t X (l :: ls)).1 } :=
      (congrArg Prod.fst hp).symm
    have hout : out = (runLayers t X (l :: ls)).2 :=
      (congrArg Prod.snd hp).symm
    obtain ⟨r1, r2, r3, r4⟩ := runLayers_inv t (l :: ls) X
    refine ⟨?_, ?_, ?_, ?_, ?_, ?_, ?_, ?_⟩
    · rw [hout, r1]
    · rw [hm1]; exact r2
    · rw [hm1]; exact r3
    · rw [hm1]; exact r4
    · rw [hm1]
    · rw [hm1]
    · rw [hm1]
    · rw [hm1]

/-- Helper: one evaluation step leaves the durable parameter state alone. -/
theorem evalStep_frame (m m1 : Model) (X y : List Int) (bs : Option Nat)
    (s : Nat) (h : evalStep m X y bs s = some m1) : paramsOf m1 = paramsOf m := by
  simp only [evalStep] at h
  split at h
  · exact Option.noConfusion h
  · rename_i mf out hf
    split at h
    · exact Option.noConfusion h
    · rename_i act hg
      obtain ⟨_, _, hw, _, htr, _, _, _⟩ :=
        forward_inv m (stepBatch X bs s) false mf out hf
      have hm1 := Option.some.inj h
      rw [← hm1]
      show (mf.trainable, mf.layers.map Layer.weights) = paramsOf m
      rw [hw, htr]
      rfl

/-- Helper: the whole evaluation loop leaves the durable parameter state
alone. -/
theorem evalLoop_frame (X y : List Int) (bs : Option Nat) :
    ∀ (ss : List Nat) (m m2 : Model), evalLoop m X y bs ss = some m2 →
      paramsOf m2 = paramsOf m := by
  intro ss
  induction ss with
  | nil =>
    intro m m2 h
    rw [← Option.some.inj h]
  | cons s ss ih =>
    intro m m2 h
    simp only [evalLoop] at h
    split at h
    · exact Option.noConfusion h
    · rename_i mS hS
      rw [ih mS m2 h, evalStep_frame m mS X y bs s hS]

/-- C6: `evaluate` never mutates parameters.  Whatever validation data and
batch size it is given, a completed evaluation leaves the trainable set and
every layer's parameter snapshot exactly as they were (it performs forward
passes and accumulation only; no backward pass or optimizer hook appears in
its definition). -/
theorem evaluate_frame (m : Model) (X y : List Int) (bs : Option Nat) :
    (evaluate m X y bs).map paramsOf = (evaluate m X y bs).map (fun _ => paramsOf m) ∧
    (evaluate m X y bs).map getParameters
      = (evaluate m X y bs).map (fun _ => getParameters m) := by
  constructor
  · cases he : evaluate m X y bs with
    | none => rfl
    | some m2 =>
      have hm2 := evalLoop_frame X y bs (List.range (stepCount X.length bs)) _ m2 he
      simp only [Option.map_some']
      rw [hm2]
      rfl
  · cases he : evaluate m X y bs with
    | none => rfl
    | some m2 =>
      have hm2 := evalLoop_frame X y bs (List.range (stepCount X.length bs)) _ m2 he
      have htr : m2.trainable = m.trainable := congrArg Prod.fst hm2
      have hw : m2.layers.map Layer.weights = m.layers.map Layer.weights :=
        congrArg Prod.snd hm2
      simp only [Option.map_some']
      have hget : getParameters m2 = getParameters m := by
        have hpt : ∀ i, (m2.layers.get? i).map Layer.weights
            = (m.layers.get? i).map Layer.weights := by
          intro i
          rw [← List.get?_map, ← List.get?_map, hw]
        simp only [getParameters, htr, hpt]
      rw [hget]

/-- Helper: the epoch step loop reports exactly the steps satisfying the
report condition, and the model state it produces does not depend on the
report interval. -/
theorem trainSteps_report (X y : List Int) (bs : Option Nat)
    (steps r r2 : Nat) (hr : ¬ r = 0) (hr2 : ¬ r2 = 0) :
    ∀ (L : List Nat) (m : Model),
      (trainSteps m X y bs steps r L).map Prod.snd
        = (trainSteps m X y bs steps r L).map
            (fun _ => L.filter (reportP steps r)) ∧
      (trainSteps m X y bs steps r L).map Prod.fst
        = (trainSteps m X y bs steps r2 L).map Prod.fst := by
  intro L
  induction L with
  | nil => exact fun m => ⟨rfl, rfl⟩
  | cons s ss ih =>
    intro m
    simp only [trainSteps]
    split
    · exact ⟨rfl, rfl⟩
    · rename_i m2 hstep
      rw [if_neg hr, if_neg hr2]
      obtain ⟨ih1, ih2⟩ := ih m2
      cases hi : trainSteps m2 X y bs steps r ss with
      | none =>
        rw [hi] at ih1 ih2
        cases hi2 : trainSteps m2 X y bs steps r2 ss with
        | some p2 =>
          rw [hi2] at ih2
          exact Option.noConfusion ih2
        | none => exact ⟨rfl, rfl⟩
      | some p =>
        obtain ⟨m3, rs⟩ := p
        rw [hi] at ih1 ih2
        cases hi2 : trainSteps m2 X y bs steps r2 ss with
        | none =>
          rw [hi2] at ih2
          exact Option.noConfusion ih2
        | some p2 =>
          obtain ⟨m4, rs2⟩ := p2
          rw [hi2] at ih2
          have hrs : rs = ss.filter (reportP steps r) :=
            Option.some.inj ih1
          have hm34 : m3 = m4 := Option.some.inj ih2
          constructor
          · show some ((if reportP steps r s then [s] else []) ++ rs)
              = some (List.filter (reportP steps r) (s :: ss))
            rw [hrs, List.filter_cons]
            cases hrep : reportP steps r s <;> simp
          · show some m3 = some m4
            rw [hm34]

/-- C8: per-step reporting in `train` fires exactly on the steps where
`step mod report_interval == 0` (which includes step 0 for every positive
interval) and on the final step of the epoch, and on no others; and the
report never alters control flow — the resulting model state is identical
for any two positive report intervals. -/
theorem train_report (m : Model) (X y : List Int) (bs : Option Nat)
    (steps r r2 : Nat) (hr : 0 < r) (hr2 : 0 < r2) :
    (trainSteps m X y bs steps r (List.range steps)).map Prod.snd
      = (trainSteps m X y bs steps r (List.range steps)).map
          (fun _ => (List.range steps).filter (reportP steps r)) ∧
    reportP steps r 0 = true ∧
    (trainSteps m X y bs steps r (List.range steps)).map Prod.fst
      = (trainSteps m X y bs steps r2 (List.range steps)).map Prod.fst := by
  obtain ⟨h1, h2⟩ := trainSteps_report X y bs steps r r2 (by omega) (by omega)
    (List.range steps) m
  refine ⟨h1, ?_, h2⟩
  simp [reportP]

/-- C8 witness: a one-layer model trained for one step with intervals 1 and
2. -/
theorem train_report_ok :
    0 < 1 ∧ 0 < 2 ∧
    ((trainSteps modelOne [1] [1] none 1 1 (List.range 1)).map Prod.snd
        = (trainSteps modelOne [1] [1] none 1 1 (List.range 1)).map
            (fun _ => (List.range 1).filter (reportP 1 1)) ∧
      reportP 1 1 0 = true ∧
      (trainSteps modelOne [1] [1] none 1 1 (List.range 1)).map Prod.fst
        = (trainSteps modelOne [1] [1] none 1 2 (List.range 1)).map Prod.fst) :=
  ⟨by decide, by decide,
    train_report modelOne [1] [1] none 1 1 2 (by decide) (by decide)⟩

/-- Helper: the composed forward map depends only on the per-layer maps. -/
theorem chainF_congr : ∀ L1 L2 : List Layer, L1.map Layer.f = L2.map Layer.f →
    chainF L1 = chainF L2 := by
  intro L1
  induction L1 with
  | nil =>
    intro L2 h
    cases L2 with
    | nil => rfl
    | cons c cs => exact absurd h (by simp)
  | cons a as ih =>
    intro L2 h
    cases L2 with
    | nil => exact absurd h (by simp)
    | cons c cs =>
      simp only [List.map_cons, List.cons.injEq] at h
      obtain ⟨hac, hrest⟩ := h
      funext t x
      show chainF as t (a.f t x) = chainF cs t (c.f t x)
      rw [hac, ih cs hrest]

/-- Helper: the prediction loop collects, in step order, the composed
forward image of every slice. -/
theorem predictLoop_spec (X : List Int) (bs : Option Nat) :
    ∀ (ss : List Nat) (m : Model), m.layers ≠ [] →
      ∃ m2, predictLoop m X bs ss
        = some (m2, ss.map fun s => (stepBatch X bs s).map (chainF m.layers false)) := by
  intro ss
  induction ss with
  | nil =>
    intro m hm
    exact ⟨m, rfl⟩
  | cons s ss ih =>
    intro m hm
    simp only [predictLoop]
    cases hf : forward m (stepBatch X bs s) false with
    | none =>
      cases hL : m.layers with
      | nil => exact absurd hL hm
      | cons l ls =>
        simp only [forward, hL] at hf
        exact Option.noConfusion hf
    | some p =>
      obtain ⟨m1, out⟩ := p
      obtain ⟨hout, hfm, _, hlen, _, _, _, _⟩ :=
        forward_inv m (stepBatch X bs s) false m1 out hf
      have hm1ne : m1.layers ≠ [] := by
        intro hnil
        rw [hnil] at hlen
        exact hm (List.length_eq_zero.mp hlen.symm)
      obtain ⟨m2, hm2⟩ := ih m1 hm1ne
      have hcc : chainF m1.layers = chainF m.layers := chainF_congr _ _ hfm
      rw [hcc] at hm2
      refine ⟨m2, ?_⟩
      show (match predictLoop m1 X bs ss with
        | none => none
        | some (m3, outs) => some (m3, out :: outs))
        = some (m2, (s :: ss).map fun s => (stepBatch X bs s).map (chainF m.layers false))
      rw [hm2]
      show some (m2, out :: _) = _
      rw [List.map_cons, ← hout]

/-- Helper: a zero-length dataset yields zero steps under a truthy batch
size. -/
theorem stepCount_zero (b : Nat) (hb : 0 < b) : stepCount 0 (some b) = 0 := by
  have htr : truthy (some b) = true := by
    simp [truthy]
    omega
  simp [stepCount, htr]

/-- Helper: under a truthy batch size, each processed batch peels `b`
samples off the front. -/
theorem stepCount_succ (n b : Nat) (hb : 0 < b) (hn : 0 < n) :
    stepCount n (some b) = stepCount (n - b) (some b) + 1 := by
  obtain ⟨hceil, -, -, -⟩ := stepCount_facts n b hb hn
  rcases le_or_lt n b with h | h
  · have hnb : n - b = 0 := by omega
    rw [hceil, hnb, stepCount_zero b hb]
    have h1 : (n + b - 1) / b = 1 := by
      apply Nat.div_eq_of_lt_le <;> omega
    omega
  · have hnb : 0 < n - b := by omega
    obtain ⟨hceil2, -, -, -⟩ := stepCount_facts (n - b) b hb hnb
    rw [hceil, hceil2]
    have h1 : n + b - 1 = (n - b + b - 1) + b := by omega
    rw [h1, Nat.add_div_right _ hb]

/-- Helper: concatenating the slices of every step reassembles the dataset
exactly (the short final batch included). -/
theorem flatten_chunks (b : Nat) (hb : 0 < b) :
    ∀ (n : Nat) (X : List Int), X.length = n →
      ((List.range (stepCount X.length (some b))).map
        (fun s => (X.drop (s * b)).take b)).flatten = X := by
  intro n
  induction n using Nat.strong_induction_on with
  | _ n ih =>
    intro X hlen
    rcases Nat.eq_zero_or_pos X.length with h0 | h0
    · have hX : X = [] := List.length_eq_zero.mp h0
      subst hX
      rw [show (List.nil : List Int).length = 0 from rfl, stepCount_zero b hb]
      rfl
    · rw [stepCount_succ X.length b hb h0, List.range_succ_eq_map,
        List.map_cons, List.map_map]
      have hcomp : ((fun s => (X.drop (s * b)).take b) ∘ Nat.succ)
          = fun s => (((X.drop b).drop (s * b)).take b) := by
        funext s
        simp [Function.comp, Nat.succ_mul, List.drop_drop, Nat.add_comm]
      rw [hcomp]
      have hdl : (X.drop b).length = X.length - b := List.length_drop b X
      have hrec := ih (X.length - b) (by omega) (X.drop b) hdl
      rw [hdl] at hrec
      show ((X.drop (0 * b)).take b) ++ _ = X
      rw [Nat.zero_mul, List.drop_zero, hrec]
      exact List.take_append_drop b X

/-- C9: for every non-empty dataset and every valid batch size (unbatched
included), `predict` succeeds and returns one output row per input row, in
input order: the concatenation of the per-step forward outputs is exactly
the dataset's image under the composed per-sample map. -/
theorem predict_rows (m : Model) (X : List Int) (bs : Option Nat)
    (hm : m.layers ≠ []) (hX : X ≠ [])
    (hbs : bs = none ∨ ∃ b, bs = some b ∧ 0 < b) :
    ∃ m2, predict m X bs = some (m2, X.map (chainF m.layers false)) ∧
      (X.map (chainF m.layers false)).length = X.length := by
  obtain ⟨m2, hloop⟩ :=
    predictLoop_spec X bs (List.range (stepCount X.length bs)) m hm
  have hpos : 0 < stepCount X.length bs := by
    rcases hbs with hbs | ⟨b, hbs, hb⟩
    · subst hbs
      exact Nat.one_pos
    · subst hbs
      exact (stepCount_facts X.length b hb (List.length_pos.mpr hX)).2.2.2
  have hflat : ((List.range (stepCount X.length bs)).map
      (fun s => (stepBatch X bs s).map (chainF m.layers false))).flatten
      = X.map (chainF m.layers false) := by
    rcases hbs with hbs | ⟨b, hbs, hb⟩
    · subst hbs
      show ((X.map (chainF m.layers false)) ++ []) = X.map (chainF m.layers false)
      exact List.append_nil _
    · subst hbs
      have hsb : ∀ s, stepBatch X (some b) s = (X.drop (s * b)).take b :=
        fun s => stepBatch_some X b s hb
      simp only [hsb]
      rw [show (fun s => ((X.drop (s * b)).take b).map (chainF m.layers false))
          = (List.map (chainF m.layers false)) ∘ (fun s => (X.drop (s * b)).take b)
          from rfl]
      rw [← List.map_map, ← List.map_flatten,
        flatten_chunks b hb X.length X rfl]
  have hne : ((List.range (stepCount X.length bs)).map
      (fun s => (stepBatch X bs s).map (chainF m.layers false))).isEmpty = false := by
    cases hl : (List.range (stepCount X.length bs)).map
        (fun s => (stepBatch X bs s).map (chainF m.layers false)) with
    | nil =>
      have hlen := congrArg List.length hl
      simp at hlen
      omega
    | cons a as => rfl
  refine ⟨m2, ?_, List.length_map _ _⟩
  simp only [predict, hloop, hne, Bool.false_eq_true, if_false]
  rw [hflat]

/-- C9 witness: three samples through a one-layer model at batch size two. -/
theorem predict_rows_ok :
    modelOne.layers ≠ [] ∧ ([1, 2, 3] : List Int) ≠ [] ∧
    (∃ m2, predict modelOne [1, 2, 3] (some 2)
        = some (m2, ([1, 2, 3] : List Int).map (chainF modelOne.layers false)) ∧
      (([1, 2, 3] : List Int).map (chainF modelOne.layers false)).length
        = ([1, 2, 3] : List Int).length) := by
  have hm : modelOne.layers ≠ [] := List.cons_ne_nil _ _
  have hX : ([1, 2, 3] : List Int) ≠ [] := List.cons_ne_nil _ _
  exact ⟨hm, hX, predict_rows modelOne [1, 2, 3] (some 2) hm hX
    (Or.inr ⟨2, rfl, by decide⟩)⟩

end NNFS
